import Mathlib

/-!
# Verification of the pseudogaussian watermark core (`src/pseudogaussians.py`)

Shallow embedding of the three functions of `src/pseudogaussians.py` from the
PRC-Watermark repository: the pseudogaussian sampler `sample`, the posterior
recovery `recover_posteriors`, and the random orthonormal basis generator
`random_basis`.

Arrays of shape `(C, H, W)` are modelled as functions `Fin C → Fin H → Fin W → ℝ`
(`→ ℂ` in the Fourier domain) and one-dimensional arrays as `Fin m → ℝ`.  The
ambient random draws of the source (`np.random.randn`, `torch.randn`) are passed
as explicit arguments.  The library primitives the source calls are given their
documented mathematical semantics: `torch.fft.fft2`/`ifft2` are the standard
(unnormalised / `1/(H·W)`-normalised) 2-D discrete Fourier transforms over the
last two axes, `fftshift`/`ifftshift` roll those axes by half their length,
`scipy.special.erf` is the Gauss error function, `np.sqrt` of a negative float
is NaN (a warning, not an exception), `torch.sqrt` of a Python `int` raises
`TypeError`, and `scipy.linalg.orth` orthonormalises the columns of its input.
-/

namespace PRC

noncomputable section

open scoped BigOperators

/-- Coefficient of the length-`N` discrete Fourier transform in the convention
of `torch.fft.fft2`: `exp (-2·π·i·k·n / N)`. -/
def dftCoeff (N k n : ℕ) : ℂ :=
  Complex.exp ((-(2 * Real.pi * (k * n) / N) : ℝ) * Complex.I)

/-- Coefficient of the inverse transform: `exp (2·π·i·k·n / N)`. -/
def idftCoeff (N k n : ℕ) : ℂ :=
  Complex.exp (((2 * Real.pi * (k * n) / N) : ℝ) * Complex.I)

/-- `torch.fft.fft2`: the 2-D DFT over the last two axes of a `(C,H,W)` array. -/
def fft2 {C H W : ℕ} (x : Fin C → Fin H → Fin W → ℂ) : Fin C → Fin H → Fin W → ℂ :=
  fun c k l => ∑ h : Fin H, ∑ w : Fin W, x c h w * dftCoeff H k h * dftCoeff W l w

/-- `torch.fft.ifft2`: the inverse 2-D DFT over the last two axes, with the
`1/(H·W)` normalisation used by torch. -/
def ifft2 {C H W : ℕ} (x : Fin C → Fin H → Fin W → ℂ) : Fin C → Fin H → Fin W → ℂ :=
  fun c h w =>
    (1 / ((H : ℂ) * (W : ℂ))) *
      ∑ k : Fin H, ∑ l : Fin W, x c k l * idftCoeff H k h * idftCoeff W l w

/-- Index map of `torch.fft.fftshift` along one axis of length `n`: the axis is
rolled by `n / 2`, so position `i` of the shifted array holds entry
`(i + (n - n / 2)) % n` of the original. -/
def fftshiftIdx (n : ℕ) (i : Fin n) : Fin n :=
  ⟨(i + (n - n / 2)) % n, Nat.mod_lt _ i.pos⟩

/-- Index map of `torch.fft.ifftshift` along one axis of length `n`: position
`i` of the shifted array holds entry `(i + n / 2) % n` of the original. -/
def ifftshiftIdx (n : ℕ) (i : Fin n) : Fin n :=
  ⟨(i + n / 2) % n, Nat.mod_lt _ i.pos⟩

/-- `torch.fft.fftshift(·, dim=(-1,-2))`: move the zero-frequency component to
the centre of the last two axes. -/
def fftshift {C H W : ℕ} {α : Type} (x : Fin C → Fin H → Fin W → α) :
    Fin C → Fin H → Fin W → α :=
  fun c i j => x c (fftshiftIdx H i) (fftshiftIdx W j)

/-- `torch.fft.ifftshift(·, dim=(-1,-2))`: undo `fftshift`. -/
def ifftshift {C H W : ℕ} {α : Type} (x : Fin C → Fin H → Fin W → α) :
    Fin C → Fin H → Fin W → α :=
  fun c i j => x c (ifftshiftIdx H i) (ifftshiftIdx W j)

/-- `fft_noise = torch.fft.fftshift(torch.fft.fft2(noise_tensor), dim=(-1, -2))`:
the centered Fourier spectrum of the drawn noise field. -/
def fft_noise {C H W : ℕ} (noise : Fin C → Fin H → Fin W → ℝ) :
    Fin C → Fin H → Fin W → ℂ :=
  fftshift (fft2 (fun c h w => ((noise c h w : ℝ) : ℂ)))

/-- `coded_fourier_noise = torch.tensor(codeword_np, ...) * torch.abs(fft_noise.real)`:
the codeword multiplied elementwise by the absolute value of the *real part* of
the centered spectrum (`.real` extracts the real component before `torch.abs`). -/
def coded_fourier_noise {C H W : ℕ} (codeword noise : Fin C → Fin H → Fin W → ℝ) :
    Fin C → Fin H → Fin W → ℝ :=
  fun c i j => codeword c i j * |(fft_noise noise c i j).re|

/-- `sample(codeword, basis=None, target_shape=(C,H,W))`: the codeword (already
reshaped to the target shape) modulates the centered noise spectrum, and the
pseudogaussian is the real part of the inverse transform
`torch.fft.ifft2(torch.fft.ifftshift(coded_fourier_noise, dim=(-1,-2))).real`.
The `np.random.randn(*target_shape)` draw is the explicit `noise` argument. -/
def sample {C H W : ℕ} (codeword noise : Fin C → Fin H → Fin W → ℝ) :
    Fin C → Fin H → Fin W → ℝ :=
  fun c h w =>
    (ifft2 (ifftshift fun c' i j => ((coded_fourier_noise codeword noise c' i j : ℝ) : ℂ))
        c h w).re

/-- `sample` with the `basis` argument supplied: the source returns
`pseudogaussian @ basis.T`.  For the 3-D tensor `pseudogaussian` of shape
`(C,H,W)` and the 2-D matrix `basis.T`, `torch.matmul` is a batched matrix
product along the last axis: entry `(c,h,w)` is
`∑ j, pseudogaussian[c,h,j] * basis[w,j]`.  No flattening occurs. -/
def sample_with_basis {C H W : ℕ} (codeword noise : Fin C → Fin H → Fin W → ℝ)
    (basis : Fin W → Fin W → ℝ) : Fin C → Fin H → Fin W → ℝ :=
  fun c h w => ∑ j : Fin W, sample codeword noise c h j * basis w j

/-- Result shape of `pseudogaussian @ basis.T` under the `torch.matmul`
broadcasting rule: a `(C,H,W)` tensor times an `(n,n)` matrix is defined only
when `W = n`, and the result then has shape `(C,H,n)`; otherwise torch raises a
shape error (modelled by `none`). -/
def sample_basis_shape (C H W n : ℕ) : Option (List ℕ) :=
  if W = n then some [C, H, n] else none

/-- Modelled from the spec: "if a basis is supplied, flatten the sample and
right-multiply by the basis's transpose".  The flat index set of the reshaped
sample is the triple `Fin C × Fin H × Fin W`; entry `p` of the projected vector
is `∑ q, flattened[q] * basisᵀ[q, p]`.  This definition follows the spec's
words and is compared against `sample_with_basis`, which follows the source. -/
def sample_flatten_spec {C H W : ℕ} (codeword noise : Fin C → Fin H → Fin W → ℝ)
    (basis : (Fin C × Fin H × Fin W) → (Fin C × Fin H × Fin W) → ℝ) :
    (Fin C × Fin H × Fin W) → ℝ :=
  fun p => ∑ q : Fin C × Fin H × Fin W, sample codeword noise q.1 q.2.1 q.2.2 * basis p q

/-- `scipy.special.erf`: the Gauss error function
`erf x = (2/√π) · ∫ t in 0..x, exp (-t²)`. -/
def erf (x : ℝ) : ℝ :=
  (2 / Real.sqrt Real.pi) * ∫ t in (0 : ℝ)..x, Real.exp (-t ^ 2)

/-- The `variances` argument of `recover_posteriors` as the source can receive
it in Python's dynamic typing: absent (`None`), a Python `float`, a Python
`int`, or a tensor of per-element variances. -/
inductive VariancesArg (m : ℕ) where
  | noneV : VariancesArg m
  | float (v : ℝ) : VariancesArg m
  | int (v : ℤ) : VariancesArg m
  | tensor (v : Fin m → ℝ) : VariancesArg m

/-- Outcome of a call into the dynamically-typed source: a normal return value,
a NaN-contaminated return (`np.sqrt`/`torch.sqrt` of a negative argument yields
NaN with a warning, and NaN propagates through the subsequent division and
`erf`), or a raised `TypeError` (`torch.sqrt` applied to a non-Tensor). -/
inductive PyResult (α : Type) where
  | ok (y : α) : PyResult α
  | nanOut : PyResult α
  | typeError : PyResult α

open Classical in
/-- The `denominators` computation at the head of `recover_posteriors`:
`None` gives `np.sqrt(2 * 1.5 * (1 + 1.5)) * torch.ones_like(z)`; a Python
float `v` (only an exact `float` passes `type(variances) is float`) gives the
scalar `np.sqrt(2 * v * (1 + v))`, which is NaN when the argument is negative;
any other value is passed to `torch.sqrt(2 * variances * (1 + variances))`,
which raises `TypeError` on a Python `int` and computes elementwise on a
tensor (NaN at entries whose argument is negative; the `nanOut` summary marks a
result containing NaN entries).  At an argument of exactly `0` (a float `v`
in `{-1.0, 0.0}`) the source subsequently divides by a float signed zero,
which yields `±inf` (then `erf → ±1`) or NaN at `z = 0`; real arithmetic has
no signed zero, and with Lean's total division the model evaluates that
boundary as `erf 0 = 0` instead.  The claims' content concerns strictly
positive or strictly negative arguments, where the model matches the source;
where a theorem's hypothesis admits the boundary, its value there reflects
this model convention only. -/
def denominators {m : ℕ} (variances : VariancesArg m) : PyResult (Fin m → ℝ) :=
  match variances with
  | .noneV => .ok fun _ => Real.sqrt (2 * 1.5 * (1 + 1.5))
  | .float v =>
      if 0 ≤ 2 * v * (1 + v) then .ok fun _ => Real.sqrt (2 * v * (1 + v)) else .nanOut
  | .int _ => .typeError
  | .tensor v =>
      if ∀ i, 0 ≤ 2 * v i * (1 + v i) then .ok fun i => Real.sqrt (2 * v i * (1 + v i))
      else .nanOut

/-- `recover_posteriors(z, basis=None, variances=None)`: compute the
denominators from `variances`, then return `erf(z / denominators)`, or
`erf((z @ basis) / denominators)` when a basis is supplied
(`(z @ basis)[j] = ∑ k, z[k] * basis[k][j]`). -/
def recover_posteriors {m : ℕ} (z : Fin m → ℝ) (basis : Option (Fin m → Fin m → ℝ))
    (variances : VariancesArg m) : PyResult (Fin m → ℝ) :=
  match denominators variances with
  | .ok d =>
      match basis with
      | Option.none => .ok fun i => erf (z i / d i)
      | Option.some b => .ok fun i => erf ((∑ k : Fin m, z k * b k i) / d i)
  | .nanOut => .nanOut
  | .typeError => .typeError

/-- A `variances` setting is valid when every denominator argument
`2·v·(1+v)` is strictly positive (and the value is not a Python `int`, which
`torch.sqrt` rejects). -/
def validVariances {m : ℕ} : VariancesArg m → Prop
  | .noneV => True
  | .float v => 0 < 2 * v * (1 + v)
  | .int _ => False
  | .tensor v => ∀ i, 0 < 2 * v i * (1 + v i)

/-- The columns of an `n × n` real matrix, as vectors of `EuclideanSpace ℝ (Fin n)`. -/
def cols {n : ℕ} (g : Matrix (Fin n) (Fin n) ℝ) : Fin n → EuclideanSpace ℝ (Fin n) :=
  fun k => fun i => g i k

/-- The orthonormalised columns produced by `scipy.linalg.orth`, modelled by
Gram-Schmidt orthonormalisation of the input's columns. -/
def orthCols {n : ℕ} (g : Matrix (Fin n) (Fin n) ℝ) : Fin n → EuclideanSpace ℝ (Fin n) :=
  @gramSchmidtNormed ℝ (EuclideanSpace ℝ (Fin n)) inferInstance inferInstance inferInstance
    (Fin n) inferInstance inferInstance (inferInstance : WellFoundedLT (Fin n)) (cols g)

/-- `scipy.linalg.orth`: returns a matrix whose columns are an orthonormal
basis of the range of the input (scipy computes it by SVD).  Modelled by
Gram-Schmidt orthonormalisation of the columns, which realises the same
orthonormal-columns contract for a full-rank input. -/
def orth {n : ℕ} (g : Matrix (Fin n) (Fin n) ℝ) : Matrix (Fin n) (Fin n) ℝ :=
  Matrix.of fun i j => orthCols g j i

/-- `random_basis(n) = orth(torch.randn(n, n, dtype=torch.double))`, with the
ambient `torch.randn(n, n)` draw passed as the explicit argument `gaussian`. -/
def random_basis {n : ℕ} (gaussian : Matrix (Fin n) (Fin n) ℝ) :
    Matrix (Fin n) (Fin n) ℝ :=
  orth gaussian

/-- Outcome of `random_basis` over an arbitrary integer argument. -/
inductive RBResult where
  | ok (m : ℕ) (B : Matrix (Fin m) (Fin m) ℝ) : RBResult
  | negDimError : RBResult
  | emptyReductionError : RBResult

/-- `random_basis(n)` for an arbitrary integer `n`: `torch.randn(n, n)` raises
`RuntimeError` for a negative dimension; for `n = 0` the empty `(0,0)` tensor
reaches `scipy.linalg.orth`, whose tolerance computation `np.amax(s)` reduces
an empty singular-value array and raises `ValueError`.  For `n > 0` it returns
`orth` of the drawn matrix (`g` supplies the ambient draw for each size). -/
def random_basis_checked (n : ℤ) (g : ∀ m : ℕ, Matrix (Fin m) (Fin m) ℝ) : RBResult :=
  if n < 0 then .negDimError
  else if n = 0 then .emptyReductionError
  else .ok n.toNat (random_basis (g n.toNat))

/-- A concrete all-ones codeword of shape `(1,1,4)`, used to evaluate the
sampler at an explicit input. -/
def cexCodeword : Fin 1 → Fin 1 → Fin 4 → ℝ := fun _ _ _ => 1

/-- A concrete noise field of shape `(1,1,4)`: a unit impulse at position `1`
of the last axis.  Its length-4 DFT is `1, -i, -1, i`, so the centered
spectrum has purely imaginary entries whose real part is `0` while their
complex magnitude is `1`. -/
def cexNoise : Fin 1 → Fin 1 → Fin 4 → ℝ := fun _ _ w => if w = 1 then 1 else 0

end

/-! ## Properties of the error function -/

section ErfFacts

lemma gaussian_continuous : Continuous fun t : ℝ => Real.exp (-t ^ 2) :=
  Real.continuous_exp.comp (continuous_pow 2).neg

lemma gaussian_intervalIntegrable (a b : ℝ) :
    IntervalIntegrable (fun t : ℝ => Real.exp (-t ^ 2)) MeasureTheory.volume a b :=
  gaussian_continuous.intervalIntegrable a b

lemma erf_zero : erf 0 = 0 := by
  simp [erf]

lemma gaussian_integral_neg (x : ℝ) :
    (∫ t in (0:ℝ)..(-x), Real.exp (-t ^ 2)) = -∫ t in (0:ℝ)..x, Real.exp (-t ^ 2) := by
  have h1 : (∫ t in (0:ℝ)..x, Real.exp (-(-t) ^ 2)) = ∫ t in (-x)..(-(0:ℝ)), Real.exp (-t ^ 2) :=
    intervalIntegral.integral_comp_neg fun t : ℝ => Real.exp (-t ^ 2)
  simp only [neg_sq, neg_zero] at h1
  rw [intervalIntegral.integral_symm 0 (-x)] at h1
  linarith

lemma erf_neg (x : ℝ) : erf (-x) = -erf x := by
  unfold erf
  rw [gaussian_integral_neg]
  ring

lemma erf_nonneg {x : ℝ} (h : 0 ≤ x) : 0 ≤ erf x := by
  refine mul_nonneg (by positivity) ?_
  exact intervalIntegral.integral_nonneg h fun u _ => (Real.exp_pos _).le

lemma sqrt_pi_pos : 0 < Real.sqrt Real.pi :=
  Real.sqrt_pos.mpr Real.pi_pos

lemma gaussian_integral_le_sqrt_pi_half {x : ℝ} (h : 0 ≤ x) :
    (∫ t in (0:ℝ)..x, Real.exp (-t ^ 2)) ≤ Real.sqrt Real.pi / 2 := by
  have hIoc : (∫ t in (0:ℝ)..x, Real.exp (-t ^ 2))
      = ∫ t in Set.Ioc (0:ℝ) x, Real.exp (-t ^ 2) :=
    intervalIntegral.integral_of_le h
  have hint : MeasureTheory.IntegrableOn (fun t : ℝ => Real.exp (-t ^ 2))
      (Set.Ioi (0:ℝ)) MeasureTheory.volume := by
    have h2 : MeasureTheory.Integrable fun t : ℝ => Real.exp (-1 * t ^ 2) :=
      integrable_exp_neg_mul_sq one_pos
    simpa using h2.integrableOn
  have hmono : (∫ t in Set.Ioc (0:ℝ) x, Real.exp (-t ^ 2))
      ≤ ∫ t in Set.Ioi (0:ℝ), Real.exp (-t ^ 2) := by
    refine MeasureTheory.setIntegral_mono_set hint ?_ ?_
    · exact MeasureTheory.ae_of_all _ fun t => (Real.exp_pos _).le
    · exact HasSubset.Subset.eventuallyLE Set.Ioc_subset_Ioi_self
  have hIoi : (∫ t in Set.Ioi (0:ℝ), Real.exp (-t ^ 2)) = Real.sqrt Real.pi / 2 := by
    have h3 := integral_gaussian_Ioi 1
    simpa using h3
  rw [hIoc]
  rw [hIoi] at hmono
  exact hmono

lemma erf_le_one (x : ℝ) : erf x ≤ 1 := by
  rcases le_or_lt 0 x with h | h
  · have hI := gaussian_integral_le_sqrt_pi_half h
    have hs := sqrt_pi_pos
    calc erf x ≤ (2 / Real.sqrt Real.pi) * (Real.sqrt Real.pi / 2) := by
          exact mul_le_mul_of_nonneg_left hI (by positivity)
      _ = 1 := by field_simp
  · have h1 : 0 ≤ erf (-x) := erf_nonneg (by linarith)
    have h2 := erf_neg x
    linarith

lemma neg_one_le_erf (x : ℝ) : -1 ≤ erf x := by
  have h1 := erf_le_one (-x)
  rw [erf_neg] at h1
  linarith

lemma abs_erf_le_one (x : ℝ) : |erf x| ≤ 1 :=
  abs_le.mpr ⟨neg_one_le_erf x, erf_le_one x⟩

lemma erf_mono {a b : ℝ} (hab : a ≤ b) : erf a ≤ erf b := by
  have hadd : (∫ t in (0:ℝ)..a, Real.exp (-t ^ 2)) + (∫ t in a..b, Real.exp (-t ^ 2))
      = ∫ t in (0:ℝ)..b, Real.exp (-t ^ 2) :=
    intervalIntegral.integral_add_adjacent_intervals
      (gaussian_intervalIntegrable 0 a) (gaussian_intervalIntegrable a b)
  have hpos : 0 ≤ ∫ t in a..b, Real.exp (-t ^ 2) :=
    intervalIntegral.integral_nonneg hab fun u _ => (Real.exp_pos _).le
  unfold erf
  have hs := sqrt_pi_pos
  have : (∫ t in (0:ℝ)..a, Real.exp (-t ^ 2)) ≤ ∫ t in (0:ℝ)..b, Real.exp (-t ^ 2) := by
    linarith
  exact mul_le_mul_of_nonneg_left this (by positivity)

lemma exp_taylor_bound {u : ℝ} (h0 : 0 ≤ u) (h1 : u ≤ 1) :
    1 - u + u ^ 2 / 2 - 2 / 9 * u ^ 3 ≤ Real.exp (-u) ∧
      Real.exp (-u) ≤ 1 - u + u ^ 2 / 2 + 2 / 9 * u ^ 3 := by
  have hx : |(-u)| ≤ 1 := by
    rw [abs_neg, abs_of_nonneg h0]
    exact h1
  have h := Real.exp_bound (n := 3) hx (by norm_num)
  have hsum : (∑ m ∈ Finset.range 3, (-u) ^ m / m.factorial) = 1 - u + u ^ 2 / 2 := by
    simp [Finset.sum_range_succ, Nat.factorial]
    ring
  rw [hsum] at h
  have habs : |Real.exp (-u) - (1 - u + u ^ 2 / 2)| ≤ 2 / 9 * u ^ 3 := by
    refine h.trans_eq ?_
    rw [abs_neg, abs_of_nonneg h0]
    norm_num [Nat.factorial]
    ring
  have h2 := abs_le.mp habs
  exact ⟨by linarith [h2.1], by linarith [h2.2]⟩

lemma poly_integral (c x : ℝ) :
    (∫ t in (0:ℝ)..x, (1 - t ^ 2 + t ^ 4 / 2 + c * t ^ 6))
      = x - x ^ 3 / 3 + x ^ 5 / 10 + c / 7 * x ^ 7 := by
  have i1 : IntervalIntegrable (fun _ : ℝ => (1:ℝ)) MeasureTheory.volume 0 x :=
    intervalIntegrable_const
  have i2 : IntervalIntegrable (fun t : ℝ => t ^ 2) MeasureTheory.volume 0 x :=
    (continuous_pow 2).intervalIntegrable 0 x
  have i4 : IntervalIntegrable (fun t : ℝ => t ^ 4 / 2) MeasureTheory.volume 0 x :=
    ((continuous_pow 4).div_const 2).intervalIntegrable 0 x
  have i6 : IntervalIntegrable (fun t : ℝ => c * t ^ 6) MeasureTheory.volume 0 x :=
    (continuous_const.mul (continuous_pow 6)).intervalIntegrable 0 x
  rw [intervalIntegral.integral_add ((i1.sub i2).add i4) i6,
    intervalIntegral.integral_add (i1.sub i2) i4,
    intervalIntegral.integral_sub i1 i2,
    intervalIntegral.integral_div, intervalIntegral.integral_const_mul,
    intervalIntegral.integral_const, integral_pow, integral_pow, integral_pow]
  push_cast [smul_eq_mul]
  ring

lemma gaussian_integral_poly_bounds {x : ℝ} (h0 : 0 ≤ x) (h1 : x ≤ 1) :
    x - x ^ 3 / 3 + x ^ 5 / 10 - 2 / 63 * x ^ 7
        ≤ (∫ t in (0:ℝ)..x, Real.exp (-t ^ 2)) ∧
      (∫ t in (0:ℝ)..x, Real.exp (-t ^ 2))
        ≤ x - x ^ 3 / 3 + x ^ 5 / 10 + 2 / 63 * x ^ 7 := by
  have ipoly : ∀ c : ℝ, IntervalIntegrable
      (fun t : ℝ => 1 - t ^ 2 + t ^ 4 / 2 + c * t ^ 6) MeasureTheory.volume 0 x := by
    intro c
    exact (((continuous_const.sub (continuous_pow 2)).add
      ((continuous_pow 4).div_const 2)).add
      (continuous_const.mul (continuous_pow 6))).intervalIntegrable 0 x
  have hsq : ∀ t : ℝ, t ∈ Set.Icc (0:ℝ) x → 0 ≤ t ^ 2 ∧ t ^ 2 ≤ 1 := by
    intro t ht
    constructor
    · positivity
    · have h2 : |t| ≤ 1 := by
        rw [abs_le]
        constructor <;> [linarith [ht.1]; linarith [ht.2]]
      calc t ^ 2 = |t| ^ 2 := (sq_abs t).symm
        _ ≤ 1 := by nlinarith [abs_nonneg t]
  constructor
  · have hle : (∫ t in (0:ℝ)..x, (1 - t ^ 2 + t ^ 4 / 2 + (-(2/9)) * t ^ 6))
        ≤ ∫ t in (0:ℝ)..x, Real.exp (-t ^ 2) := by
      refine intervalIntegral.integral_mono_on h0 (ipoly _)
        (gaussian_intervalIntegrable 0 x) ?_
      intro t ht
      have h2 := (exp_taylor_bound (hsq t ht).1 (hsq t ht).2).1
      calc 1 - t ^ 2 + t ^ 4 / 2 + -(2/9) * t ^ 6
          = 1 - t ^ 2 + (t ^ 2) ^ 2 / 2 - 2 / 9 * (t ^ 2) ^ 3 := by ring
        _ ≤ Real.exp (-t ^ 2) := h2
    rw [poly_integral] at hle
    calc x - x ^ 3 / 3 + x ^ 5 / 10 - 2 / 63 * x ^ 7
        = x - x ^ 3 / 3 + x ^ 5 / 10 + -(2/9) / 7 * x ^ 7 := by ring
      _ ≤ _ := hle
  · have hle : (∫ t in (0:ℝ)..x, Real.exp (-t ^ 2))
        ≤ ∫ t in (0:ℝ)..x, (1 - t ^ 2 + t ^ 4 / 2 + (2/9) * t ^ 6) := by
      refine intervalIntegral.integral_mono_on h0
        (gaussian_intervalIntegrable 0 x) (ipoly _) ?_
      intro t ht
      have h2 := (exp_taylor_bound (hsq t ht).1 (hsq t ht).2).2
      calc Real.exp (-t ^ 2)
          ≤ 1 - t ^ 2 + (t ^ 2) ^ 2 / 2 + 2 / 9 * (t ^ 2) ^ 3 := h2
        _ = 1 - t ^ 2 + t ^ 4 / 2 + 2/9 * t ^ 6 := by ring
    rw [poly_integral] at hle
    calc (∫ t in (0:ℝ)..x, Real.exp (-t ^ 2))
        ≤ x - x ^ 3 / 3 + x ^ 5 / 10 + (2/9) / 7 * x ^ 7 := hle
      _ = x - x ^ 3 / 3 + x ^ 5 / 10 + 2 / 63 * x ^ 7 := by ring

lemma sqrt_pi_bounds :
    (1.772453 : ℝ) < Real.sqrt Real.pi ∧ Real.sqrt Real.pi < 1.772454 := by
  constructor
  · rw [Real.lt_sqrt (by norm_num)]
    have h := Real.pi_gt_d6
    nlinarith
  · rw [Real.sqrt_lt' (by norm_num)]
    have h := Real.pi_lt_d6
    nlinarith

lemma erf_poly_lower {x : ℝ} (h0 : 0 ≤ x) (h1 : x ≤ 1) :
    2 / 1.772454 * (x - x ^ 3 / 3 + x ^ 5 / 10 - 2 / 63 * x ^ 7) ≤ erf x := by
  have hL := (gaussian_integral_poly_bounds h0 h1).1
  have hI0 : 0 ≤ ∫ t in (0:ℝ)..x, Real.exp (-t ^ 2) :=
    intervalIntegral.integral_nonneg h0 fun u _ => (Real.exp_pos _).le
  have hs := sqrt_pi_bounds
  have hsp := sqrt_pi_pos
  have h2 : (2 / 1.772454 : ℝ) ≤ 2 / Real.sqrt Real.pi := by
    rw [div_le_div_iff₀ (by norm_num) hsp]
    nlinarith [hs.2]
  unfold erf
  calc 2 / 1.772454 * (x - x ^ 3 / 3 + x ^ 5 / 10 - 2 / 63 * x ^ 7)
      ≤ 2 / 1.772454 * ∫ t in (0:ℝ)..x, Real.exp (-t ^ 2) :=
        mul_le_mul_of_nonneg_left hL (by norm_num)
    _ ≤ (2 / Real.sqrt Real.pi) * ∫ t in (0:ℝ)..x, Real.exp (-t ^ 2) :=
        mul_le_mul_of_nonneg_right h2 hI0
lemma erf_poly_upper {x : ℝ} (h0 : 0 ≤ x) (h1 : x ≤ 1) :
    erf x ≤ 2 / 1.772453 * (x - x ^ 3 / 3 + x ^ 5 / 10 + 2 / 63 * x ^ 7) := by
  have hU := (gaussian_integral_poly_bounds h0 h1).2
  have hI0 : 0 ≤ ∫ t in (0:ℝ)..x, Real.exp (-t ^ 2) :=
    intervalIntegral.integral_nonneg h0 fun u _ => (Real.exp_pos _).le
  have hs := sqrt_pi_bounds
  have hsp := sqrt_pi_pos
  have h2 : 2 / Real.sqrt Real.pi ≤ (2 / 1.772453 : ℝ) := by
    rw [div_le_div_iff₀ hsp (by norm_num)]
    nlinarith [hs.1]
  unfold erf
  calc (2 / Real.sqrt Real.pi) * ∫ t in (0:ℝ)..x, Real.exp (-t ^ 2)
      ≤ 2 / 1.772453 * ∫ t in (0:ℝ)..x, Real.exp (-t ^ 2) :=
        mul_le_mul_of_nonneg_right h2 hI0
    _ ≤ 2 / 1.772453 * (x - x ^ 3 / 3 + x ^ 5 / 10 + 2 / 63 * x ^ 7) :=
        mul_le_mul_of_nonneg_left hU (by norm_num)

lemma erf_at_inv_sqrt_twelve :
    (0.3168 : ℝ) < erf (1 / Real.sqrt 12) ∧ erf (1 / Real.sqrt 12) < 0.3172 := by
  have h12l : (3.464101 : ℝ) < Real.sqrt 12 := by
    rw [Real.lt_sqrt (by norm_num)]
    norm_num
  have h12u : Real.sqrt 12 < (3.464102 : ℝ) := by
    rw [Real.sqrt_lt' (by norm_num)]
    norm_num
  have h12p : (0:ℝ) < Real.sqrt 12 := by linarith
  have hxl : (0.288675 : ℝ) ≤ 1 / Real.sqrt 12 := by
    rw [le_div_iff₀ h12p]
    nlinarith
  have hxu : 1 / Real.sqrt 12 ≤ (0.288676 : ℝ) := by
    rw [div_le_iff₀ h12p]
    nlinarith
  constructor
  · have h1 : erf 0.288675 ≤ erf (1 / Real.sqrt 12) := erf_mono hxl
    have h2 := erf_poly_lower (x := 0.288675) (by norm_num) (by norm_num)
    have h3 : (0.3168 : ℝ) < 2 / 1.772454 *
        ((0.288675 : ℝ) - 0.288675 ^ 3 / 3 + 0.288675 ^ 5 / 10 - 2 / 63 * 0.288675 ^ 7) := by
      norm_num
    linarith
  · have h1 : erf (1 / Real.sqrt 12) ≤ erf 0.288676 := erf_mono hxu
    have h2 := erf_poly_upper (x := 0.288676) (by norm_num) (by norm_num)
    have h3 : 2 / 1.772453 *
        ((0.288676 : ℝ) - 0.288676 ^ 3 / 3 + 0.288676 ^ 5 / 10 + 2 / 63 * 0.288676 ^ 7)
        < (0.3172 : ℝ) := by
      norm_num
    linarith

end ErfFacts

/-! ## Evaluation lemmas for `recover_posteriors` -/

section RecoverFacts

lemma denominators_float_eval {m : ℕ} {v : ℝ} (h : 0 ≤ 2 * v * (1 + v)) :
    denominators (m := m) (.float v) = .ok fun _ => Real.sqrt (2 * v * (1 + v)) := by
  simp [denominators, h]

lemma recover_noneV_eval {m : ℕ} (z : Fin m → ℝ) :
    recover_posteriors z Option.none .noneV
      = .ok fun i => erf (z i / Real.sqrt (2 * 1.5 * (1 + 1.5))) := by
  simp [recover_posteriors, denominators]

lemma recover_float_eval {m : ℕ} (z : Fin m → ℝ) {v : ℝ} (h : 0 ≤ 2 * v * (1 + v)) :
    recover_posteriors z Option.none (.float v)
      = .ok fun i => erf (z i / Real.sqrt (2 * v * (1 + v))) := by
  simp [recover_posteriors, denominators_float_eval h]

lemma recover_float_eval_basis {m : ℕ} (z : Fin m → ℝ) (b : Fin m → Fin m → ℝ) {v : ℝ}
    (h : 0 ≤ 2 * v * (1 + v)) :
    recover_posteriors z (Option.some b) (.float v)
      = .ok fun i => erf ((∑ k : Fin m, z k * b k i) / Real.sqrt (2 * v * (1 + v))) := by
  simp [recover_posteriors, denominators_float_eval h]

lemma denominators_valid {m : ℕ} {V : VariancesArg m} (hV : validVariances V) :
    ∃ d : Fin m → ℝ, denominators V = .ok d := by
  cases V with
  | noneV => exact ⟨_, rfl⟩
  | float v =>
      have h : 0 ≤ 2 * v * (1 + v) := le_of_lt hV
      exact ⟨_, denominators_float_eval h⟩
  | int v => cases hV
  | tensor v =>
      have h : ∀ i, 0 ≤ 2 * v i * (1 + v i) := fun i => le_of_lt (hV i)
      exact ⟨fun i => Real.sqrt (2 * v i * (1 + v i)), by simp [denominators, h]⟩

end RecoverFacts

/-! ## Claim C2 -/

/-- C2 counterexample: `recover_posteriors(z, variances=-2.0)` does *not*
raise a domain error: the argument of the square root, `2·(-2)·(1+(-2)) = 4`,
is strictly positive, and the call returns the ordinary value
`erf(z/2)` (`= 0` at `z = 0`). -/
theorem recover_neg_two_variance_cex :
    recover_posteriors ![(0:ℝ)] Option.none (.float (-2)) = .ok (fun _ => (0:ℝ)) ∧
      (0:ℝ) < 2 * (-2) * (1 + (-2)) := by
  constructor
  · have h : (0:ℝ) ≤ 2 * (-2) * (1 + (-2)) := by norm_num
    rw [recover_float_eval _ h]
    congr 1
    funext i
    simp [erf_zero]
  · norm_num

/-- C2 (amended): for a scalar float `variances = v` the source raises no
domain error: when `2·v·(1+v) < 0` (i.e. `-1 < v < 0`) `np.sqrt` silently
produces NaN and the call returns a NaN-contaminated array, and when
`0 < 2·v·(1+v)` (which holds for every `v < -1`, e.g. `v = -2.0`, where the
argument is `4`) the call returns `erf(z / sqrt(2·v·(1+v)))` normally.  (At
the boundary `v ∈ {-1.0, 0.0}` the denominator is zero and the source
divides by a float signed zero — outside this real-number model — so nothing
is asserted there.) -/
theorem recover_scalar_variance_no_domain_error :
    ∀ (m : ℕ) (z : Fin m → ℝ) (v : ℝ),
      (2 * v * (1 + v) < 0 → recover_posteriors z Option.none (.float v) = .nanOut) ∧
        (0 < 2 * v * (1 + v) →
          recover_posteriors z Option.none (.float v)
            = .ok fun i => erf (z i / Real.sqrt (2 * v * (1 + v)))) := by
  intro m z v
  constructor
  · intro h
    simp [recover_posteriors, denominators, not_le.mpr h]
  · intro h
    exact recover_float_eval z (le_of_lt h)

/-- C2 witness: at `v = -0.5` the denominator argument is negative and the
call returns NaN output rather than raising. -/
theorem recover_scalar_variance_no_domain_error_witness :
    recover_posteriors ![(0:ℝ)] Option.none (.float (-(1/2))) = .nanOut :=
  (recover_scalar_variance_no_domain_error 1 ![0] (-(1/2))).1 (by norm_num)

/-! ## Claim C4 -/

/-- C4 (amended): `recover_posteriors` computes `d = sqrt(2·v·(1+v))` with
`v = 1.5` when `variances` is absent and `v = variances` for a scalar float,
projects `z' = z @ basis` when a basis is supplied (else `z' = z`), and
returns `erf(z'/d)` elementwise; for `variances = 2.0` and `z = 1.0` the
result is `erf(1/sqrt 12) ≈ 0.3169` within `1e-3` (the spec's constant
`0.3158` is just outside the stated tolerance). -/
theorem recover_posteriors_formula :
    (∀ (m : ℕ) (z : Fin m → ℝ),
        recover_posteriors z Option.none .noneV
          = .ok fun i => erf (z i / Real.sqrt (2 * 1.5 * (1 + 1.5)))) ∧
      (∀ (m : ℕ) (z : Fin m → ℝ) (v : ℝ), 0 ≤ 2 * v * (1 + v) →
        recover_posteriors z Option.none (.float v)
          = .ok fun i => erf (z i / Real.sqrt (2 * v * (1 + v)))) ∧
      (∀ (m : ℕ) (z : Fin m → ℝ) (b : Fin m → Fin m → ℝ) (v : ℝ), 0 ≤ 2 * v * (1 + v) →
        recover_posteriors z (Option.some b) (.float v)
          = .ok fun i => erf ((∑ k : Fin m, z k * b k i) / Real.sqrt (2 * v * (1 + v)))) ∧
      (∃ y, recover_posteriors ![(1:ℝ)] Option.none (.float 2) = .ok y ∧
        |y 0 - 0.3169| < 1e-3) := by
  refine ⟨fun m z => recover_noneV_eval z, fun m z v h => recover_float_eval z h,
    fun m z b v h => recover_float_eval_basis z b h, ?_⟩
  refine ⟨_, recover_float_eval ![(1:ℝ)] (v := 2) (by norm_num), ?_⟩
  have h12 : (2 * 2 * (1 + 2) : ℝ) = 12 := by norm_num
  have h1 : (![(1:ℝ)]) 0 = 1 := rfl
  rw [h12, h1]
  have he := erf_at_inv_sqrt_twelve
  rw [abs_lt]
  constructor <;> [linarith [he.1]; linarith [he.2]]

/-- C4 witness: the scalar-float branch evaluated at `m = 1`, `z = 0`,
`v = 2`. -/
theorem recover_posteriors_formula_witness :
    recover_posteriors ![(0:ℝ)] Option.none (.float 2)
      = .ok fun i => erf ((![(0:ℝ)]) i / Real.sqrt (2 * 2 * (1 + 2))) :=
  recover_posteriors_formula.2.1 1 ![0] 2 (by norm_num)

/-- C4 counterexample: at `variances = 2.0`, `z = 1.0` the returned value is
`erf(1/sqrt 12) ≈ 0.31691`, which differs from the claimed `0.3158` by more
than the claimed tolerance `1e-3`. -/
theorem recover_posteriors_scenario_cex :
    ∃ y, recover_posteriors ![(1:ℝ)] Option.none (.float 2) = .ok y ∧
      (1e-3 : ℝ) < |y 0 - 0.3158| := by
  refine ⟨_, recover_float_eval ![(1:ℝ)] (v := 2) (by norm_num), ?_⟩
  have h12 : (2 * 2 * (1 + 2) : ℝ) = 12 := by norm_num
  have h1 : (![(1:ℝ)]) 0 = 1 := rfl
  rw [h12, h1]
  have he := erf_at_inv_sqrt_twelve
  have h2 : (0:ℝ) ≤ erf (1 / Real.sqrt 12) - 0.3158 := by linarith [he.1]
  rw [abs_of_nonneg h2]
  linarith [he.1]

/-! ## Claim C8 -/

/-- C8: for every valid variances setting, `recover_posteriors` is odd in `z`
(`recover_posteriors(-z, basis, variances) = -recover_posteriors(z, basis,
variances)`), and `recover_posteriors` applied to `z = 0` returns all zeros. -/
theorem recover_posteriors_odd {m : ℕ} (z : Fin m → ℝ)
    (basis : Option (Fin m → Fin m → ℝ)) (V : VariancesArg m) (hV : validVariances V) :
    (∃ y, recover_posteriors z basis V = .ok y ∧
        recover_posteriors (fun i => -z i) basis V = .ok fun i => -y i) ∧
      recover_posteriors (fun _ => (0:ℝ)) basis V = .ok fun _ => (0:ℝ) := by
  obtain ⟨d, hd⟩ := denominators_valid hV
  constructor
  · cases basis with
    | none =>
        refine ⟨fun i => erf (z i / d i), by simp [recover_posteriors, hd], ?_⟩
        have h : (fun i => erf (-z i / d i)) = fun i => -erf (z i / d i) := by
          funext i
          rw [neg_div, erf_neg]
        simp [recover_posteriors, hd, h]
    | some b =>
        refine ⟨fun i => erf ((∑ k : Fin m, z k * b k i) / d i),
          by simp [recover_posteriors, hd], ?_⟩
        have h : (fun i => erf ((∑ k : Fin m, -z k * b k i) / d i))
            = fun i => -erf ((∑ k : Fin m, z k * b k i) / d i) := by
          funext i
          rw [show (∑ k : Fin m, -z k * b k i) = -∑ k : Fin m, z k * b k i by
            simp [neg_mul], neg_div, erf_neg]
        simp only [recover_posteriors, hd]
        rw [← h]
  · cases basis with
    | none => simp [recover_posteriors, hd, erf_zero]
    | some b => simp [recover_posteriors, hd, erf_zero]

/-- C8 witness: odd symmetry and the zero output evaluated at `m = 1`,
`z = 1`, no basis, `variances = 2.0`. -/
theorem recover_posteriors_odd_witness :
    (∃ y, recover_posteriors ![(1:ℝ)] Option.none (.float 2) = .ok y ∧
        recover_posteriors (fun i => -(![(1:ℝ)] i)) Option.none (.float 2)
          = .ok fun i => -y i) ∧
      recover_posteriors (m := 1) (fun _ => (0:ℝ)) Option.none (.float 2)
        = .ok fun _ => (0:ℝ) :=
  recover_posteriors_odd ![1] Option.none (.float 2) (by norm_num [validVariances])

/-! ## Claim C9 -/

/-- C9: for every valid (strictly positive) variances setting, a normal
return value of `recover_posteriors` has the same shape as the (possibly
projected) input (enforced here by its type `Fin m → ℝ`) and every element
lies in the closed interval `[-1, 1]`. -/
theorem recover_posteriors_in_unit_interval {m : ℕ} (z : Fin m → ℝ)
    (basis : Option (Fin m → Fin m → ℝ)) (V : VariancesArg m) (hV : validVariances V) :
    ∀ y, recover_posteriors z basis V = .ok y → ∀ i, |y i| ≤ 1 := by
  intro y hy i
  obtain ⟨d, hd⟩ := denominators_valid hV
  cases basis with
  | none =>
      simp [recover_posteriors, hd] at hy
      subst hy
      exact abs_erf_le_one _
  | some b =>
      simp [recover_posteriors, hd] at hy
      subst hy
      exact abs_erf_le_one _

/-- C9 witness: the bound evaluated at `m = 1`, `z = 5`, no basis,
`variances = 2.0`. -/
theorem recover_posteriors_in_unit_interval_witness :
    |erf ((![(5:ℝ)]) 0 / Real.sqrt (2 * 2 * (1 + 2)))| ≤ 1 :=
  recover_posteriors_in_unit_interval ![5] Option.none (.float 2)
    (by norm_num [validVariances])
    (fun i => erf ((![(5:ℝ)]) i / Real.sqrt (2 * 2 * (1 + 2))))
    (recover_float_eval ![5] (by norm_num)) 0

/-! ## Claim C10 -/

/-- C10: an integer-valued `variances` argument fails the
`type(variances) is float` test, is dispatched to the
`torch.sqrt(2 * variances * (1 + variances))` branch and raises a
`TypeError`, whereas the mathematically identical float `2.0` succeeds via
the scalar branch. -/
theorem recover_posteriors_int_variances_raises :
    ∀ (m : ℕ) (z : Fin m → ℝ) (basis : Option (Fin m → Fin m → ℝ)) (n : ℤ),
      recover_posteriors z basis (.int n) = .typeError ∧
        ∃ y, recover_posteriors z basis (.float 2) = .ok y := by
  intro m z basis n
  constructor
  · cases basis <;> simp [recover_posteriors, denominators]
  · have h : (0:ℝ) ≤ 2 * 2 * (1 + 2) := by norm_num
    cases basis with
    | none => exact ⟨_, recover_float_eval z h⟩
    | some b => exact ⟨_, recover_float_eval_basis z b h⟩

/-! ## Claim C5 -/

/-- C5: for every target shape, `sample` applied to an all-zero codeword
returns an all-zero array of that shape, regardless of the noise field drawn
(exactly, in real arithmetic). -/
theorem sample_zero_codeword {C H W : ℕ} (noise : Fin C → Fin H → Fin W → ℝ) :
    sample (fun _ _ _ => (0:ℝ)) noise = fun _ _ _ => (0:ℝ) := by
  funext c h w
  simp [sample, coded_fourier_noise, ifft2, ifftshift]

/-! ## Claim C3 -/

/-- C3 (amended): when a basis is supplied the source does *not* flatten the
sample: it multiplies the shaped array by `basis.T` along the last axis
(torch batched matmul), so the result keeps the shape `(C,H,W)` (first
conjunct: the shape rule for the `W × W` basis the matmul accepts); this
coincides with the spec's flatten-then-project exactly in the degenerate case
`C = H = 1` (second conjunct). -/
theorem sample_basis_no_flatten :
    (∀ C H W : ℕ, sample_basis_shape C H W W = some [C, H, W]) ∧
      (∀ (W : ℕ) (codeword noise : Fin 1 → Fin 1 → Fin W → ℝ)
          (b : Fin W → Fin W → ℝ) (c h : Fin 1) (w : Fin W),
        sample_with_basis codeword noise b c h w
          = sample_flatten_spec codeword noise (fun p q => b p.2.2 q.2.2) (c, h, w)) := by
  constructor
  · intro C H W
    simp [sample_basis_shape]
  · intro W codeword noise b c h w
    obtain rfl : c = 0 := Subsingleton.elim c 0
    obtain rfl : h = 0 := Subsingleton.elim h 0
    simp [sample_with_basis, sample_flatten_spec, Fintype.sum_prod_type,
      Fin.sum_univ_one]

/-- C3 counterexample: for the shape `(4,64,64)` and the `64 × 64` basis that
the source's matmul accepts, the output shape is `[4,64,64]` — a 3-D array,
not a one-dimensional vector of length `prod(S)` or of the basis's row
count — and a basis sized for the flattened vector (`16384 × 16384`) is
rejected with a shape error instead of producing the projected vector. -/
theorem sample_basis_shape_cex :
    sample_basis_shape 4 64 64 64 = some [4, 64, 64] ∧
      ([4, 64, 64] : List ℕ).length ≠ 1 ∧
      sample_basis_shape 4 64 64 (4 * 64 * 64) = none := by
  refine ⟨by decide, by decide, by decide⟩

/-! ## Claim C1 -/

lemma dftCoeff_right_zero (N k : ℕ) : dftCoeff N k 0 = 1 := by
  simp [dftCoeff]

lemma dftCoeff_four_one_one : dftCoeff 4 1 1 = -Complex.I := by
  unfold dftCoeff
  have h : (-(2 * Real.pi * (((1:ℕ):ℝ) * ((1:ℕ):ℝ)) / ((4:ℕ):ℝ)) : ℝ) = -(Real.pi / 2) := by
    push_cast
    ring
  rw [h]
  have hc : Complex.cos ((-(Real.pi / 2) : ℝ) : ℂ) = 0 := by
    rw [← Complex.ofReal_cos]
    norm_num [Real.cos_pi_div_two]
  have hs : Complex.sin ((-(Real.pi / 2) : ℝ) : ℂ) = -1 := by
    rw [← Complex.ofReal_sin]
    norm_num [Real.sin_pi_div_two]
  rw [Complex.exp_mul_I, hc, hs]
  ring

lemma fft_noise_cex_eval : fft_noise cexNoise 0 0 3 = -Complex.I := by
  have hidx4 : fftshiftIdx 4 3 = 1 := by decide
  have hidx1 : fftshiftIdx 1 0 = 0 := by decide
  show fft2 (fun c h w => ((cexNoise c h w : ℝ) : ℂ)) 0 (fftshiftIdx 1 0) (fftshiftIdx 4 3)
      = -Complex.I
  rw [hidx4, hidx1]
  unfold fft2
  rw [Fin.sum_univ_one, Fin.sum_univ_four]
  norm_num [cexNoise, dftCoeff_right_zero, dftCoeff_four_one_one, Fin.ext_iff]
  exact Or.inl (by decide)

/-- C1 (amended): in `sample`, the new centered spectrum's value at each
position equals the codeword's value multiplied by the absolute value of the
*real part* of the noise field's centered Fourier spectrum at that position
(the source applies `torch.abs` to `fft_noise.real`, not to the complex
`fft_noise`); this agrees with the claimed full complex magnitude exactly at
positions where the centered spectrum is purely real. -/
theorem coded_spectrum_real_part_magnitude :
    (∀ (C H W : ℕ) (codeword noise : Fin C → Fin H → Fin W → ℝ)
        (c : Fin C) (i : Fin H) (j : Fin W),
      coded_fourier_noise codeword noise c i j
        = codeword c i j * |(fft_noise noise c i j).re|) ∧
      (∀ (C H W : ℕ) (codeword noise : Fin C → Fin H → Fin W → ℝ)
          (c : Fin C) (i : Fin H) (j : Fin W), (fft_noise noise c i j).im = 0 →
        coded_fourier_noise codeword noise c i j
          = codeword c i j * Complex.abs (fft_noise noise c i j)) := by
  constructor
  · intro C H W codeword noise c i j
    rfl
  · intro C H W codeword noise c i j him
    have habs : Complex.abs (fft_noise noise c i j) = |(fft_noise noise c i j).re| := by
      rw [Complex.abs_apply, Complex.normSq_apply, him, mul_zero, add_zero,
        Real.sqrt_mul_self_eq_abs]
    rw [habs]
    rfl

/-- C1 witness: the real-spectrum agreement case evaluated at the all-zero
noise field of shape `(1,1,1)`, whose centered spectrum is `0` (purely real). -/
theorem coded_spectrum_real_part_magnitude_witness :
    coded_fourier_noise (C := 1) (H := 1) (W := 1)
        (fun _ _ _ => (1:ℝ)) (fun _ _ _ => (0:ℝ)) 0 0 0
      = (fun _ _ _ => (1:ℝ)) (0 : Fin 1) (0 : Fin 1) (0 : Fin 1) *
          Complex.abs (fft_noise (C := 1) (H := 1) (W := 1) (fun _ _ _ => (0:ℝ)) 0 0 0) :=
  coded_spectrum_real_part_magnitude.2 1 1 1 (fun _ _ _ => 1) (fun _ _ _ => 0) 0 0 0
    (by simp [fft_noise, fft2, fftshift])

/-- C1 counterexample: for the unit-impulse noise field `cexNoise` of shape
`(1,1,4)` and the all-ones codeword, the centered spectrum at position
`(0,0,3)` is `-i`: the source's coded value is `1 · |Re(-i)| = 0`, while the
claimed value `1 · |-i| = 1`, so the coded spectrum does not equal the
codeword times the complex magnitude of the centered spectrum. -/
theorem coded_spectrum_complex_magnitude_cex :
    coded_fourier_noise cexCodeword cexNoise 0 0 3 = 0 ∧
      cexCodeword 0 0 3 * Complex.abs (fft_noise cexNoise 0 0 3) = 1 ∧
      coded_fourier_noise cexCodeword cexNoise 0 0 3
        ≠ cexCodeword 0 0 3 * Complex.abs (fft_noise cexNoise 0 0 3) := by
  have h := fft_noise_cex_eval
  have h0 : coded_fourier_noise cexCodeword cexNoise 0 0 3 = 0 := by
    show cexCodeword 0 0 3 * |(fft_noise cexNoise 0 0 3).re| = 0
    rw [h]
    simp [cexCodeword]
  have h1 : cexCodeword 0 0 3 * Complex.abs (fft_noise cexNoise 0 0 3) = 1 := by
    rw [h]
    simp [cexCodeword]
  refine ⟨h0, h1, ?_⟩
  rw [h0, h1]
  norm_num

/-! ## Claim C6 -/

lemma orthCols_orthonormal {n : ℕ} {g : Matrix (Fin n) (Fin n) ℝ}
    (h : LinearIndependent ℝ (cols g)) : Orthonormal ℝ (orthCols g) :=
  @gramSchmidt_orthonormal ℝ (EuclideanSpace ℝ (Fin n)) inferInstance inferInstance
    inferInstance (Fin n) inferInstance inferInstance
    (inferInstance : WellFoundedLT (Fin n)) (cols g) h

/-- C6: for `n ≥ 1` and a full-rank gaussian draw (which holds almost
surely), `B = random_basis(gaussian)` is an `n × n` real matrix with
orthonormal columns: every entry of `Bᵀ * B` differs from the identity by
less than `1e-6` (in exact real arithmetic the difference is `0`). -/
theorem random_basis_orthonormal :
    ∀ (n : ℕ), 1 ≤ n → ∀ (g : Matrix (Fin n) (Fin n) ℝ),
      LinearIndependent ℝ (cols g) →
      ∀ i j : Fin n,
        |((random_basis g).transpose * random_basis g) i j - (1 : Matrix (Fin n) (Fin n) ℝ) i j|
          < 1e-6 := by
  intro n hn g hli i j
  have horth := orthCols_orthonormal hli
  have hinner := orthonormal_iff_ite.mp horth i j
  have hentry : ((random_basis g).transpose * random_basis g) i j
      = ∑ k : Fin n, orthCols g i k * orthCols g j k := by
    simp [random_basis, orth, Matrix.mul_apply, Matrix.transpose_apply]
  have hinner2 : (inner (orthCols g i) (orthCols g j) : ℝ)
      = ∑ k : Fin n, orthCols g i k * orthCols g j k := by
    simp [PiLp.inner_apply, RCLike.inner_apply, starRingEnd_apply, star_trivial]
  rw [hentry, ← hinner2, hinner, Matrix.one_apply]
  split_ifs <;> norm_num

lemma cols_one_linearIndependent :
    LinearIndependent ℝ (cols (1 : Matrix (Fin 1) (Fin 1) ℝ)) := by
  refine linearIndependent_unique _ ?_
  intro h
  have h0 := congrFun h 0
  simp [cols, Matrix.one_apply] at h0

/-- C6 witness: the orthonormality bound evaluated at `n = 1` with the
identity matrix as the gaussian draw (whose single column is nonzero, hence
linearly independent). -/
theorem random_basis_orthonormal_witness :
    |((random_basis (1 : Matrix (Fin 1) (Fin 1) ℝ)).transpose *
        random_basis (1 : Matrix (Fin 1) (Fin 1) ℝ)) 0 0
        - (1 : Matrix (Fin 1) (Fin 1) ℝ) 0 0| < 1e-6 :=
  random_basis_orthonormal 1 (le_refl 1) 1 cols_one_linearIndependent 0 0

/-! ## Claim C7 -/

/-- C7: `random_basis(n)` fails for every integer `n ≤ 0` rather than
returning a matrix: `torch.randn` rejects a negative dimension, and for
`n = 0` the tolerance reduction inside `scipy.linalg.orth` raises on the
empty singular-value array. -/
theorem random_basis_checked_nonpos_fails :
    ∀ (n : ℤ) (g : ∀ m : ℕ, Matrix (Fin m) (Fin m) ℝ), n ≤ 0 →
      ∀ (m : ℕ) (B : Matrix (Fin m) (Fin m) ℝ), random_basis_checked n g ≠ .ok m B := by
  intro n g hn m B hcon
  unfold random_basis_checked at hcon
  rcases lt_or_eq_of_le hn with h | h
  · rw [if_pos h] at hcon
    exact RBResult.noConfusion hcon
  · rw [if_neg (by omega), if_pos (by omega)] at hcon
    exact RBResult.noConfusion hcon

/-- C7 witness: `random_basis(-1)` is not a normal matrix result. -/
theorem random_basis_checked_nonpos_fails_witness :
    random_basis_checked (-1) (fun _ => 1) ≠ RBResult.ok 0 1 :=
  random_basis_checked_nonpos_fails (-1) (fun _ => 1) (by norm_num) 0 1

end PRC
